import Mathlib

/-!
Verification development for the Plinko reference implementation
(`plinko-reference/iprf.py` and `plinko-reference/table_prp.py`).

The Python source is shallowly embedded:

* Machine integers become `Nat` (Python's integers are unbounded, so no
  wrap-around modelling is needed; the `struct.pack` 64-bit bound is
  modelled explicitly where a claim depends on it).
* The binomial sampler `IPRF._sample_binomial(node_id, ball_count, p)` is
  a deterministic function of the tree node `(low, high)`, the fixed
  original domain size (through `encode_node(low, high, n_original)`) and
  the current `ball_count` (its probability argument `p` is itself a
  function of `low` and `high`).  Its floating-point internals are opaque
  here: the tree walks are parameterised by an arbitrary function
  `samp : Nat → Nat → Nat → Nat → Nat` of `(low, high, n_original,
  ball_count)`.  The only fact the tree-walk correctness needs is
  `samp low high n bc ≤ bc`, which the Python `_binomial_inverse_cdf`
  guarantees by construction (every return path is clamped to `[0, n]`).
* Fallible operations return `Option`: `none` models a raised exception.
* Python's float division in `get_expected_preimage_size` is modelled by
  an exact round-to-nearest-ties-to-even binary64 rounding function on
  rationals (CPython's `int.__truediv__` is correctly rounded).
-/

namespace Plinko

/-- Embeds `IPRF._trace_ball` (iprf.py lines 116-161).  The `while low < high`
loop becomes recursion on the interval width.  `samp low high nOrig bc` stands
for `self._sample_binomial(encode_node(low, high, nOrig), bc, p)` with
`p = (mid - low + 1) / (high - low + 1)`. -/
def traceAux (samp : Nat → Nat → Nat → Nat → Nat) (nOrig : Nat) :
    Nat → Nat → Nat → Nat → Nat
  | low, high, bc, bi =>
    if _h : low < high then
      let mid := (low + high) / 2
      let L := samp low high nOrig bc
      if bi < L then
        traceAux samp nOrig low mid L bi
      else
        traceAux samp nOrig (mid + 1) high (bc - L) (bi - L)
    else
      low
termination_by low high _ _ => high - low
decreasing_by
  all_goals omega

/-- Embeds `IPRF._trace_ball`'s entry: `m = 1` returns `0`, otherwise the
loop starts at `low = 0`, `high = m - 1`, `ball_count = n`, `ball_index = x`. -/
def traceBall (samp : Nat → Nat → Nat → Nat → Nat) (x n m : Nat) : Nat :=
  if m = 1 then 0 else traceAux samp n 0 (m - 1) n x

/-- Embeds `IPRF.forward` (iprf.py lines 70-85): `x ≥ domain` returns `0`,
otherwise trace the ball. -/
def forward (samp : Nat → Nat → Nat → Nat → Nat) (n m x : Nat) : Nat :=
  if x ≥ n then 0 else traceBall samp x n m

/-- Embeds `IPRF._enumerate_recursive` (iprf.py lines 198-264), keeping the
source's guards literally: the early return for `low > high`, empty ball
interval or zero ball count; the leaf `extend(range(start_idx, end_idx + 1))`;
and the two guarded recursive calls. -/
def enumRec (samp : Nat → Nat → Nat → Nat → Nat) (nOrig target : Nat) :
    Nat → Nat → Nat → Nat → Nat → List Nat
  | low, high, bc, startIdx, endIdx =>
    if low > high ∨ startIdx > endIdx ∨ bc = 0 then []
    else if hlh : low = high then
      if low = target then List.range' startIdx (endIdx + 1 - startIdx) else []
    else
      let mid := (low + high) / 2
      let L := samp low high nOrig bc
      let R := bc - L
      let splitIdx := startIdx + L
      if target ≤ mid then
        if L > 0 ∧ splitIdx > startIdx then
          enumRec samp nOrig target low mid L startIdx (splitIdx - 1)
        else []
      else
        if R > 0 ∧ splitIdx ≤ endIdx then
          enumRec samp nOrig target (mid + 1) high R splitIdx endIdx
        else []
termination_by low high _ _ _ => high - low
decreasing_by
  all_goals omega

/-- Embeds `IPRF._enumerate_balls_in_bin` (iprf.py lines 163-196): `m = 1`
returns `range(n)`; otherwise run the recursion from the root and sort the
accumulator ascending.  Python's `sorted(result)` is modelled by insertion
sort, which computes the same (ascending) rearrangement. -/
def enumerateBalls (samp : Nat → Nat → Nat → Nat → Nat) (y n m : Nat) :
    List Nat :=
  if m = 1 then List.range n
  else (enumRec samp n y 0 (m - 1) n 0 (n - 1)).insertionSort (· ≤ ·)

/-- Embeds `IPRF.inverse` (iprf.py lines 87-103): `y ≥ range_size` returns
the empty list, otherwise enumerate the balls in bin `y`. -/
def inverse (samp : Nat → Nat → Nat → Nat → Nat) (n m y : Nat) : List Nat :=
  if y ≥ m then [] else enumerateBalls samp y n m

/-! Tree-walk correctness: the ball traced to a subtree `[low, high]` lands in
a bin of that subtree, and the inverse recursion over a subtree returns
exactly the balls the forward walk sends to the target bin. -/

theorem traceAux_bounds (samp : Nat → Nat → Nat → Nat → Nat) (nOrig : Nat) :
    ∀ low high bc bi, low ≤ high →
      low ≤ traceAux samp nOrig low high bc bi ∧
        traceAux samp nOrig low high bc bi ≤ high := by
  intro low high bc bi
  induction low, high, bc, bi using traceAux.induct samp nOrig with
  | case1 low high bc bi hlh mid L hbi IH =>
    intro _
    rw [traceAux]
    simp only [dif_pos hlh, if_pos hbi]
    have hmid : low ≤ mid ∧ mid ≤ high := by simp only [mid]; omega
    exact ⟨(IH hmid.1).1, (IH hmid.1).2.trans hmid.2⟩
  | case2 low high bc bi hlh mid L hbi IH =>
    intro _
    rw [traceAux]
    simp only [dif_pos hlh, if_neg hbi]
    have hmid : low ≤ mid ∧ mid + 1 ≤ high := by simp only [mid]; omega
    exact ⟨le_trans (by omega) (IH hmid.2).1, (IH hmid.2).2⟩
  | case3 low high bc bi hlh =>
    intro h
    rw [traceAux]
    simp only [dif_neg hlh]
    exact ⟨le_rfl, h⟩

theorem traceAux_stop (samp : Nat → Nat → Nat → Nat → Nat) (nOrig : Nat)
    (low bc bi : Nat) : traceAux samp nOrig low low bc bi = low := by
  rw [traceAux]
  simp

theorem traceAux_step (samp : Nat → Nat → Nat → Nat → Nat) (nOrig : Nat)
    {low high : Nat} (bc bi : Nat) (hlh : low < high) :
    traceAux samp nOrig low high bc bi =
      if bi < samp low high nOrig bc then
        traceAux samp nOrig low ((low + high) / 2) (samp low high nOrig bc) bi
      else
        traceAux samp nOrig ((low + high) / 2 + 1) high
          (bc - samp low high nOrig bc) (bi - samp low high nOrig bc) := by
  conv_lhs => rw [traceAux]
  simp only [dif_pos hlh]

/-- Core correspondence between `_enumerate_recursive` and `_trace_ball` on a
subtree `[low, high]` holding the balls `startIdx, …, endIdx` (so
`ball_count = endIdx + 1 - startIdx`): the recursion returns, in increasing
order, exactly those balls whose forward trace through the subtree ends at
the target bin. -/
theorem enumRec_eq_filter (samp : Nat → Nat → Nat → Nat → Nat) (nOrig : Nat)
    (Hs : ∀ l h bc, samp l h nOrig bc ≤ bc) :
    ∀ low high bc startIdx endIdx y, low ≤ y → y ≤ high →
      startIdx + bc = endIdx + 1 →
      enumRec samp nOrig y low high bc startIdx endIdx =
        ((List.range bc).filter
            (fun i => traceAux samp nOrig low high bc i = y)).map
          (fun i => startIdx + i) := by
  intro low high bc startIdx endIdx y
  induction low, high, bc, startIdx, endIdx using enumRec.induct samp nOrig y with
  | case1 low high bc startIdx endIdx hg =>
    intro hy1 hy2 hinv
    have hbc : bc = 0 := by rcases hg with h | h | h <;> omega
    subst hbc
    rw [enumRec]
    simp [if_pos hg, List.range_zero]
  | case2 bc startIdx endIdx hg =>
    intro _ _ hinv
    rw [enumRec]
    rw [if_neg hg, dif_pos rfl, if_pos rfl]
    have h1 : ∀ i ∈ List.range bc,
        (decide (traceAux samp nOrig y y bc i = y)) = true := by
      intro i _
      simp [traceAux_stop]
    rw [List.filter_eq_self.2 h1]
    have he : endIdx + 1 - startIdx = bc := by omega
    rw [he, List.range'_eq_map_range]
  | case3 high bc startIdx endIdx hg hne =>
    intro hy1 hy2 _
    exact absurd (by omega : high = y) hne
  | case4 low high bc startIdx endIdx hg hne mid L splitIdx hym hguard IH =>
    intro hy1 hy2 hinv
    have hlh : low < high := by omega
    have hL : L ≤ bc := Hs low high bc
    have hmid : low ≤ mid ∧ mid < high := by simp only [mid]; omega
    -- evaluate the source recursion
    conv_lhs => rw [enumRec]
    rw [if_neg hg, dif_neg hne]
    simp only [if_pos hym, if_pos hguard]
    -- apply the induction hypothesis to the left subtree
    have hIH := IH hy1 hym (by omega)
    rw [hIH]
    -- split the ball range at L and discard the right part
    have hsplit : List.range bc =
        List.range L ++ (List.range (bc - L)).map (fun j => L + j) := by
      rw [← List.range_add]
      congr 1
      omega
    rw [hsplit, List.filter_append, List.filter_map]
    have hright : List.filter
        ((fun i => decide (traceAux samp nOrig low high bc i = y)) ∘
          fun j => L + j) (List.range (bc - L)) = [] := by
      rw [List.filter_eq_nil_iff]
      intro j _
      simp only [Function.comp_apply, decide_eq_true_eq, not_not]
      rw [traceAux_step samp nOrig bc (L + j) hlh]
      have : ¬ L + j < samp low high nOrig bc := by simp only [L] at *; omega
      rw [if_neg this]
      have hb := traceAux_bounds samp nOrig ((low + high) / 2 + 1) high
        (bc - samp low high nOrig bc) (L + j - samp low high nOrig bc)
        (by simp only [mid] at hmid; omega)
      simp only [L, mid] at *
      omega
    rw [hright, List.map_nil, List.append_nil]
    have hleft : List.filter
        (fun i => decide (traceAux samp nOrig low high bc i = y))
        (List.range L) =
        List.filter (fun i => decide (traceAux samp nOrig low mid L i = y))
        (List.range L) := by
      apply List.filter_congr
      intro i hi
      rw [List.mem_range] at hi
      rw [traceAux_step samp nOrig bc i hlh]
      rw [if_pos (by simp only [L] at hi ⊢; omega)]
    rw [hleft]
  | case5 low high bc startIdx endIdx hg hne mid L splitIdx hym hguard =>
    intro hy1 hy2 hinv
    have hlh : low < high := by omega
    have hL0 : L = 0 := by simp only [splitIdx] at hguard; omega
    conv_lhs => rw [enumRec]
    rw [if_neg hg, dif_neg hne]
    simp only [if_pos hym, if_neg hguard]
    symm
    have : List.filter
        (fun i => decide (traceAux samp nOrig low high bc i = y))
        (List.range bc) = [] := by
      rw [List.filter_eq_nil_iff]
      intro i _
      simp only [decide_eq_true_eq, not_not]
      rw [traceAux_step samp nOrig bc i hlh]
      have hLs : samp low high nOrig bc = 0 := hL0
      rw [hLs]
      rw [if_neg (by omega)]
      have hb := traceAux_bounds samp nOrig ((low + high) / 2 + 1) high
        (bc - 0) (i - 0) (by simp only [mid] at hym hne hg ⊢; omega)
      simp only [mid] at hym ⊢
      omega
    rw [this, List.map_nil]
  | case6 low high bc startIdx endIdx hg hne mid L R splitIdx hym hguard IH =>
    intro hy1 hy2 hinv
    have hlh : low < high := by omega
    have hL : L ≤ bc := Hs low high bc
    have hmid : low ≤ mid ∧ mid < high := by simp only [mid]; omega
    conv_lhs => rw [enumRec]
    rw [if_neg hg, dif_neg hne]
    simp only [if_neg hym, if_pos hguard]
    have hIH := IH (by omega) hy2 (by simp only [splitIdx, R]; omega)
    rw [hIH]
    have hsplit : List.range bc =
        List.range L ++ (List.range (bc - L)).map (fun j => L + j) := by
      rw [← List.range_add]
      congr 1
      omega
    rw [hsplit, List.filter_append, List.filter_map]
    have hleftnil : List.filter
        (fun i => decide (traceAux samp nOrig low high bc i = y))
        (List.range L) = [] := by
      rw [List.filter_eq_nil_iff]
      intro i hi
      rw [List.mem_range] at hi
      simp only [decide_eq_true_eq, not_not]
      rw [traceAux_step samp nOrig bc i hlh]
      rw [if_pos (by simp only [L] at hi ⊢; omega)]
      have hb := traceAux_bounds samp nOrig low ((low + high) / 2)
        (samp low high nOrig bc) i (by omega)
      simp only [mid] at hym
      omega
    rw [hleftnil, List.nil_append]
    have hrighteq : List.filter
        ((fun i => decide (traceAux samp nOrig low high bc i = y)) ∘
          fun j => L + j) (List.range (bc - L)) =
        List.filter
          (fun j => decide (traceAux samp nOrig (mid + 1) high R j = y))
          (List.range (bc - L)) := by
      apply List.filter_congr
      intro j _
      simp only [Function.comp_apply]
      rw [traceAux_step samp nOrig bc (L + j) hlh]
      rw [if_neg (by simp only [L]; omega)]
      have hjj : L + j - samp low high nOrig bc = j := by
        simp only [L]
        omega
      rw [hjj]
    rw [hrighteq, List.map_map]
    have hRbc : R = bc - L := rfl
    rw [← hRbc]
    congr 1
    funext j
    simp only [Function.comp_apply, splitIdx]
    omega
  | case7 low high bc startIdx endIdx hg hne mid L R splitIdx hym hguard =>
    intro hy1 hy2 hinv
    have hlh : low < high := by omega
    have hL : L ≤ bc := Hs low high bc
    have hLbc : L = bc := by simp only [splitIdx, R] at hguard; omega
    conv_lhs => rw [enumRec]
    rw [if_neg hg, dif_neg hne]
    simp only [if_neg hym, if_neg hguard]
    symm
    have : List.filter
        (fun i => decide (traceAux samp nOrig low high bc i = y))
        (List.range bc) = [] := by
      rw [List.filter_eq_nil_iff]
      intro i hi
      rw [List.mem_range] at hi
      simp only [decide_eq_true_eq, not_not]
      rw [traceAux_step samp nOrig bc i hlh]
      rw [if_pos (by simp only [L] at hLbc; omega)]
      have hb := traceAux_bounds samp nOrig low ((low + high) / 2)
        (samp low high nOrig bc) i (by omega)
      simp only [mid] at hym
      omega
    rw [this, List.map_nil]

theorem pairwise_lt_filter_range (n : Nat) (p : Nat → Bool) :
    List.Pairwise (· < ·) ((List.range n).filter p) :=
  (List.pairwise_lt_range n).filter p

theorem insertionSort_of_pairwise_lt {l : List Nat}
    (h : List.Pairwise (· < ·) l) : l.insertionSort (· ≤ ·) = l :=
  List.eq_of_perm_of_sorted (List.perm_insertionSort _ l)
    (List.sorted_insertionSort _ l) (h.imp le_of_lt)

/-- The inverse enumeration, before considering the `y ≥ m` guard, equals the
ascending list of domain points that `forward` maps to `y`. -/
theorem enumerateBalls_eq_filter (samp : Nat → Nat → Nat → Nat → Nat)
    (n m y : Nat) (Hs : ∀ l h bc, samp l h n bc ≤ bc)
    (hn : 1 ≤ n) (hm : 1 ≤ m) (hy : y < m) :
    enumerateBalls samp y n m =
      (List.range n).filter (fun x => forward samp n m x = y) := by
  by_cases hm1 : m = 1
  · subst hm1
    have hy0 : y = 0 := by omega
    subst hy0
    rw [enumerateBalls, if_pos rfl]
    symm
    apply List.filter_eq_self.2
    intro x hx
    rw [List.mem_range] at hx
    simp [forward, traceBall]
  · rw [enumerateBalls, if_neg hm1]
    have hcore := enumRec_eq_filter samp n Hs 0 (m - 1) n 0 (n - 1) y
      (Nat.zero_le y) (by omega) (by omega)
    rw [hcore]
    have hmap : ∀ l : List Nat, l.map (fun i => 0 + i) = l := by
      intro l
      simp
    rw [hmap]
    have hfe : List.filter (fun i => decide (traceAux samp n 0 (m - 1) n i = y))
        (List.range n) =
        List.filter (fun x => decide (forward samp n m x = y))
        (List.range n) := by
      apply List.filter_congr
      intro x hx
      rw [List.mem_range] at hx
      rw [forward, if_neg (by omega), traceBall, if_neg hm1]
    rw [hfe]
    exact insertionSort_of_pairwise_lt (pairwise_lt_filter_range n _)

/-- A concrete stand-in for the binomial sampler, used to instantiate the
abstract sampler parameter in witnesses; it satisfies the clamp property
`sampEx low high nOrig bc ≤ bc` that the Python `_binomial_inverse_cdf`
guarantees for the real sampler. -/
def sampEx (low high nOrig bc : Nat) : Nat :=
  (low + high + nOrig + bc) % (bc + 1)

theorem sampEx_le (low high nOrig bc : Nat) : sampEx low high nOrig bc ≤ bc :=
  Nat.lt_succ_iff.1 (Nat.mod_lt _ (Nat.succ_pos bc))

/-- C1: for an iPRF with positive domain `n` and range `m` (the 16-byte key
enters only through the deterministic binomial sampler, abstracted here as
`samp`), and any `y < m`, `inverse(y)` is exactly the list of all
`x ∈ [0, n)` with `forward(x) = y`, in strictly increasing order. -/
theorem inverse_eq_sorted_preimage (samp : Nat → Nat → Nat → Nat → Nat)
    (n m y : Nat) (Hs : ∀ l h bc, samp l h n bc ≤ bc)
    (hn : 1 ≤ n) (hm : 1 ≤ m) (hy : y < m) :
    inverse samp n m y =
      (List.range n).filter (fun x => forward samp n m x = y) ∧
    (∀ x, x ∈ inverse samp n m y ↔ x < n ∧ forward samp n m x = y) ∧
    List.Pairwise (· < ·) (inverse samp n m y) := by
  have h1 : inverse samp n m y =
      (List.range n).filter (fun x => forward samp n m x = y) := by
    rw [inverse, if_neg (by omega)]
    exact enumerateBalls_eq_filter samp n m y Hs hn hm hy
  refine ⟨h1, ?_, ?_⟩
  · intro x
    rw [h1, List.mem_filter, List.mem_range]
    simp
  · rw [h1]
    exact pairwise_lt_filter_range n _

/-- Witness for C1 at `n = 5`, `m = 3`, `y = 1` with the concrete sampler. -/
theorem inverse_eq_sorted_preimage_witness :
    (∀ l h bc, sampEx l h 5 bc ≤ bc) ∧
    (inverse sampEx 5 3 1 =
        (List.range 5).filter (fun x => forward sampEx 5 3 x = 1) ∧
      (∀ x, x ∈ inverse sampEx 5 3 1 ↔ x < 5 ∧ forward sampEx 5 3 x = 1) ∧
      List.Pairwise (· < ·) (inverse sampEx 5 3 1)) :=
  ⟨fun l h bc => sampEx_le l h 5 bc,
    inverse_eq_sorted_preimage sampEx 5 3 1 (fun l h bc => sampEx_le l h 5 bc)
      (by omega) (by omega) (by omega)⟩

/-- C2: for an iPRF with positive range `m`, every in-domain input is mapped
into `[0, m)` (no sampler hypothesis is needed: the descent keeps
`low ≤ high ≤ m - 1` whatever the binomial samples are). -/
theorem forward_lt_range (samp : Nat → Nat → Nat → Nat → Nat)
    (n m x : Nat) (hm : 1 ≤ m) (hx : x < n) :
    forward samp n m x < m := by
  rw [forward, if_neg (by omega)]
  rw [traceBall]
  by_cases hm1 : m = 1
  · rw [if_pos hm1]
    omega
  · rw [if_neg hm1]
    have hb := traceAux_bounds samp n 0 (m - 1) n x (Nat.zero_le _)
    omega

/-- Witness for C2 at `n = 7`, `m = 4`, `x = 6`. -/
theorem forward_lt_range_witness : forward sampEx 7 4 6 < 4 :=
  forward_lt_range sampEx 7 4 6 (by omega) (by omega)

/-- C3: out-of-range absorption: `forward` returns `0` on any `x ≥ n` and
`inverse` returns the empty list on any `y ≥ m`. -/
theorem forward_inverse_absorb (samp : Nat → Nat → Nat → Nat → Nat)
    (n m x y : Nat) (hx : n ≤ x) (hy : m ≤ y) :
    forward samp n m x = 0 ∧ inverse samp n m y = [] := by
  constructor
  · rw [forward, if_pos (by omega)]
  · rw [inverse, if_pos (by omega)]

/-- Witness for C3 at `n = 5`, `m = 3`, `x = 9`, `y = 7`. -/
theorem forward_inverse_absorb_witness :
    forward sampEx 5 3 9 = 0 ∧ inverse sampEx 5 3 7 = [] :=
  forward_inverse_absorb sampEx 5 3 9 7 (by omega) (by omega)

/-! TablePRP (`table_prp.py`).  The Fisher-Yates shuffle draws
`j = rng.uint64_n(i + 1)` from the keyed counter-mode RNG at loop index `i`;
the sequence of draws is abstracted as a function `draw : Nat → Nat` of the
loop index, with the guarantee `draw i ≤ i` that `uint64_n(i + 1) < i + 1`
provides (mask or `% (i + 1)` on every return path). -/

/-- Embeds Python's simultaneous swap `perm[i], perm[j] = perm[j], perm[i]`
(table_prp.py line 75): the tuple on the right is read from the old list,
then both cells are written. -/
def swapList (l : List Nat) (i j : Nat) : List Nat :=
  (l.set i (l.getD j 0)).set j (l.getD i 0)

/-- Embeds the loop `for i in range(self.domain - 1, 0, -1)` of
`TablePRP._generate_permutation` (table_prp.py lines 73-75), counting down
from the first loop index to `1`. -/
def fyLoop (draw : Nat → Nat) : Nat → List Nat → List Nat
  | 0, perm => perm
  | i + 1, perm => fyLoop draw i (swapList perm (i + 1) (draw (i + 1)))

/-- Embeds `TablePRP._generate_permutation` (table_prp.py lines 60-81):
start from `perm = list(range(domain))` and run the Fisher-Yates loop. -/
def generatePermutation (draw : Nat → Nat) (domain : Nat) : List Nat :=
  fyLoop draw (domain - 1) (List.range domain)

/-- Python `dict` lookup: the value of the last insertion with the wanted
key (keys written twice keep the newest value). -/
def dictLookup (d : List (Nat × Nat)) (k : Nat) : Option Nat :=
  (d.reverse.find? (fun p => p.1 == k)).map (fun p => p.2)

/-- Python `len(dict)`: the number of distinct keys ever inserted. -/
def dictSize (d : List (Nat × Nat)) : Nat :=
  (d.map (fun p => p.1)).dedup.length

/-- Embeds the insertions `self.forward_table[x] = y` performed by the loop
`for x in range(self.domain)` (table_prp.py lines 78-81), as the ordered
key-value list they produce. -/
def forwardTable (draw : Nat → Nat) (n : Nat) : List (Nat × Nat) :=
  (List.range n).map (fun x => (x, (generatePermutation draw n).getD x 0))

/-- Embeds the insertions `self.inverse_table[y] = x` of the same loop. -/
def inverseTable (draw : Nat → Nat) (n : Nat) : List (Nat × Nat) :=
  (List.range n).map (fun x => ((generatePermutation draw n).getD x 0, x))

theorem swapList_perm (l : List Nat) (i j : Nat)
    (hi : i < l.length) (hj : j < l.length) : (swapList l i j).Perm l := by
  rw [List.perm_iff_count]
  intro a
  unfold swapList
  have hj1 : j < (l.set i (l.getD j 0)).length := by
    rw [List.length_set]
    exact hj
  rw [List.count_set _ _ _ _ hj1, List.count_set _ _ _ _ hi]
  simp only [List.getElem_set]
  simp only [List.getD_eq_getElem l 0 hj, List.getD_eq_getElem l 0 hi, ite_self]
  have hA : (if (l[i] == a) = true then 1 else 0) ≤ List.count a l := by
    by_cases h1 : l[i] = a
    · simp only [h1, beq_self_eq_true, if_true]
      exact List.count_pos_iff.2 (h1 ▸ List.getElem_mem hi)
    · simp [h1]
  omega

theorem fyLoop_perm (draw : Nat → Nat) (hd : ∀ i, draw i ≤ i) :
    ∀ k perm, k < perm.length → (fyLoop draw k perm).Perm perm := by
  intro k
  induction k with
  | zero => intro perm _; exact List.Perm.refl perm
  | succ i IH =>
    intro perm hk
    have hswap : (swapList perm (i + 1) (draw (i + 1))).Perm perm :=
      swapList_perm perm (i + 1) (draw (i + 1)) hk
        (lt_of_le_of_lt (hd (i + 1)) hk)
    have hlen : (swapList perm (i + 1) (draw (i + 1))).length = perm.length := by
      unfold swapList
      simp [List.length_set]
    exact (IH _ (by omega)).trans hswap

theorem generatePermutation_perm (draw : Nat → Nat) (n : Nat)
    (hd : ∀ i, draw i ≤ i) (hn : 1 ≤ n) :
    (generatePermutation draw n).Perm (List.range n) := by
  rw [generatePermutation]
  have := fyLoop_perm draw hd (n - 1) (List.range n) (by simp; omega)
  exact this

theorem find_of_nodup_keys :
    ∀ (e : List (Nat × Nat)), (e.map Prod.fst).Nodup →
      ∀ {k v : Nat}, (k, v) ∈ e →
        e.find? (fun p => p.1 == k) = some (k, v) := by
  intro e
  induction e with
  | nil => intro _ k v hmem; cases hmem
  | cons a e IH =>
    intro hnd k v hmem
    rw [List.map_cons, List.nodup_cons] at hnd
    by_cases ha : a.1 = k
    · rw [List.find?_cons_of_pos _ (by simp [ha])]
      rcases List.mem_cons.1 hmem with h | h
      · rw [h]
      · exfalso
        have hk : k ∈ e.map Prod.fst := List.mem_map.2 ⟨(k, v), h, rfl⟩
        rw [ha] at hnd
        exact hnd.1 hk
    · rw [List.find?_cons_of_neg _ (by simp [ha])]
      apply IH hnd.2
      rcases List.mem_cons.1 hmem with h | h
      · exact absurd (congrArg Prod.fst h.symm) ha
      · exact h

/-- With pairwise-distinct keys, the last-insertion-wins lookup finds the
unique pair with the wanted key. -/
theorem dictLookup_of_mem {d : List (Nat × Nat)}
    (hnd : (d.map Prod.fst).Nodup) {k v : Nat} (hmem : (k, v) ∈ d) :
    dictLookup d k = some v := by
  rw [dictLookup]
  have hrev : (d.reverse.map Prod.fst).Nodup := by
    rw [List.map_reverse]
    exact List.nodup_reverse.2 hnd
  have hmemrev : (k, v) ∈ d.reverse := List.mem_reverse.2 hmem
  rw [find_of_nodup_keys d.reverse hrev hmemrev]
  rfl

theorem map_getD_range (l : List Nat) :
    (List.range l.length).map (fun i => l.getD i 0) = l := by
  apply List.ext_getElem
  · simp
  · intro i h1 h2
    simp only [List.getElem_map, List.getElem_range]
    exact List.getD_eq_getElem l 0 h2

/-- C4: for a TablePRP over a positive domain `n` (the 16-byte key enters
only through the RNG draw sequence, abstracted as `draw` with
`draw i ≤ i`), the generated `forward` table is a permutation of `[0, n)`,
`inverse[forward[x]] = x` for every `x < n`, and both tables hold exactly
`n` entries. -/
theorem tablePRP_bijection (draw : Nat → Nat) (n : Nat)
    (hd : ∀ i, draw i ≤ i) (hn : 1 ≤ n) :
    (generatePermutation draw n).Perm (List.range n) ∧
    (∀ x, x < n →
      dictLookup (forwardTable draw n) x =
        some ((generatePermutation draw n).getD x 0) ∧
      dictLookup (inverseTable draw n)
        ((generatePermutation draw n).getD x 0) = some x) ∧
    dictSize (forwardTable draw n) = n ∧
    dictSize (inverseTable draw n) = n := by
  have hperm := generatePermutation_perm draw n hd hn
  have hlen : (generatePermutation draw n).length = n := by
    rw [hperm.length_eq, List.length_range]
  have hnd : (generatePermutation draw n).Nodup :=
    hperm.nodup_iff.2 (List.nodup_range n)
  have hfwdkeys : ((forwardTable draw n).map Prod.fst) = List.range n := by
    rw [forwardTable, List.map_map]
    exact List.map_id' _
  have hinvkeys : ((inverseTable draw n).map Prod.fst) =
      generatePermutation draw n := by
    rw [inverseTable, List.map_map]
    have h2 := map_getD_range (generatePermutation draw n)
    rw [hlen] at h2
    exact h2
  refine ⟨hperm, ?_, ?_, ?_⟩
  · intro x hx
    constructor
    · apply dictLookup_of_mem
      · rw [hfwdkeys]
        exact List.nodup_range n
      · rw [forwardTable]
        exact List.mem_map.2 ⟨x, List.mem_range.2 hx, rfl⟩
    · apply dictLookup_of_mem
      · rw [hinvkeys]
        exact hnd
      · rw [inverseTable]
        exact List.mem_map.2 ⟨x, List.mem_range.2 hx, rfl⟩
  · rw [dictSize, hfwdkeys, List.dedup_eq_self.2 (List.nodup_range n),
      List.length_range]
  · rw [dictSize, hinvkeys, List.dedup_eq_self.2 hnd, hlen]

/-- Witness for C4 at `n = 6` with the draw sequence `draw i = i / 2`. -/
theorem tablePRP_bijection_witness :
    (generatePermutation (fun i => i / 2) 6).Perm (List.range 6) ∧
    (∀ x, x < 6 →
      dictLookup (forwardTable (fun i => i / 2) 6) x =
        some ((generatePermutation (fun i => i / 2) 6).getD x 0) ∧
      dictLookup (inverseTable (fun i => i / 2) 6)
        ((generatePermutation (fun i => i / 2) 6).getD x 0) = some x) ∧
    dictSize (forwardTable (fun i => i / 2) 6) = 6 ∧
    dictSize (inverseTable (fun i => i / 2) 6) = 6 :=
  tablePRP_bijection (fun i => i / 2) 6 (fun i => Nat.div_le_self i 2)
    (by omega)

/-- Record of a successfully constructed iPRF (iprf.py lines 39-68); the
`tree_depth` attribute and cipher handle are construction artefacts that no
claim consults, so only the validated parameters are kept. -/
structure IPRFParams where
  key : List Nat
  domain : Nat
  range_size : Nat

/-- Embeds the validation in `IPRF.__init__` (iprf.py lines 51-55): a raised
`ValueError` is `none`. -/
def iprfInit (key : List Nat) (domain range_size : Nat) : Option IPRFParams :=
  if key.length ≠ 16 then none
  else if domain = 0 ∨ range_size = 0 then none
  else some ⟨key, domain, range_size⟩

/-- Embeds the validation in `TablePRP.__init__` (table_prp.py lines 44-48);
the table generation that follows runs without raising, so validation alone
decides construction failure. -/
def tablePRPInit (domain : Nat) (key : List Nat) : Option (Nat × List Nat) :=
  if domain = 0 then none
  else if key.length ≠ 16 then none
  else some (domain, key)

/-- C5: construction fails exactly on the listed validation errors:
`IPRF(key, n, m)` fails iff the key is not 16 bytes or `n = 0` or `m = 0`;
`TablePRP(n, key)` fails iff `n = 0` or the key is not 16 bytes; every
other input constructs successfully. -/
theorem init_fails_iff (key : List Nat) (n m : Nat) :
    (iprfInit key n m = none ↔ (key.length ≠ 16 ∨ n = 0 ∨ m = 0)) ∧
    (tablePRPInit n key = none ↔ (n = 0 ∨ key.length ≠ 16)) := by
  constructor
  · rw [iprfInit]
    split_ifs with h1 h2
    · simp [h1]
    · simp [h1, h2]
    · simp only [not_or] at h2
      simp [h1, h2.1, h2.2]
  · rw [tablePRPInit]
    split_ifs with h1 h2
    · simp [h1]
    · simp [h1, h2]
    · simp [h1, h2]

/-! Exception model for the constructed iPRF (claim C7).  The only
non-float operation in `forward`/`inverse` that can raise after successful
construction is `encode_node` (iprf.py line 411): `struct.pack` with format
`>QQQ` raises `struct.error` as soon as one of `low`, `high`, `n` exceeds
`2^64 - 1`.  The checked walks below return `none` exactly when a visited
node trips that bound; the float arithmetic inside the sampler is total in
this model, as in every run of the reference that does not hit an exact
floating-point zero denominator. -/

def U64 : Nat := 2 ^ 64

/-- Argument check of `struct.pack('>QQQ', low, high, n)` in `encode_node`:
each field must fit an unsigned 64-bit integer. -/
def encodeNodeOk (low high n : Nat) : Bool :=
  decide (low < U64) && decide (high < U64) && decide (n < U64)

/-- The `_trace_ball` loop with the `encode_node` failure modelled:
`none` is a raised `struct.error`. -/
def traceAuxChecked (samp : Nat → Nat → Nat → Nat → Nat) (nOrig : Nat) :
    Nat → Nat → Nat → Nat → Option Nat
  | low, high, bc, bi =>
    if _h : low < high then
      if encodeNodeOk low high nOrig then
        let mid := (low + high) / 2
        let L := samp low high nOrig bc
        if bi < L then
          traceAuxChecked samp nOrig low mid L bi
        else
          traceAuxChecked samp nOrig (mid + 1) high (bc - L) (bi - L)
      else none
    else some low
termination_by low high _ _ => high - low
decreasing_by
  all_goals omega

/-- The `forward` entry points with the `encode_node` failure modelled. -/
def forwardChecked (samp : Nat → Nat → Nat → Nat → Nat) (n m x : Nat) :
    Option Nat :=
  if x ≥ n then some 0
  else if m = 1 then some 0
  else traceAuxChecked samp n 0 (m - 1) n x

/-- The `_enumerate_recursive` walk with the `encode_node` failure
modelled. -/
def enumRecChecked (samp : Nat → Nat → Nat → Nat → Nat) (nOrig target : Nat) :
    Nat → Nat → Nat → Nat → Nat → Option (List Nat)
  | low, high, bc, startIdx, endIdx =>
    if low > high ∨ startIdx > endIdx ∨ bc = 0 then some []
    else if low = high then
      some (if low = target then List.range' startIdx (endIdx + 1 - startIdx)
        else [])
    else if encodeNodeOk low high nOrig then
      let mid := (low + high) / 2
      let L := samp low high nOrig bc
      let R := bc - L
      let splitIdx := startIdx + L
      if target ≤ mid then
        if L > 0 ∧ splitIdx > startIdx then
          enumRecChecked samp nOrig target low mid L startIdx (splitIdx - 1)
        else some []
      else
        if R > 0 ∧ splitIdx ≤ endIdx then
          enumRecChecked samp nOrig target (mid + 1) high R splitIdx endIdx
        else some []
    else none
termination_by low high _ _ _ => high - low
decreasing_by
  all_goals omega

/-- The `inverse` entry points with the `encode_node` failure modelled. -/
def inverseChecked (samp : Nat → Nat → Nat → Nat → Nat) (n m y : Nat) :
    Option (List Nat) :=
  if y ≥ m then some []
  else if m = 1 then some (List.range n)
  else (enumRecChecked samp n y 0 (m - 1) n 0 (n - 1)).map
    (fun l => l.insertionSort (· ≤ ·))

theorem traceAuxChecked_eq (samp : Nat → Nat → Nat → Nat → Nat)
    (nOrig : Nat) (hno : nOrig < U64) :
    ∀ low high bc bi, high < U64 →
      traceAuxChecked samp nOrig low high bc bi =
        some (traceAux samp nOrig low high bc bi) := by
  intro low high bc bi
  induction low, high, bc, bi using traceAuxChecked.induct samp nOrig with
  | case1 low high bc bi hlh hok mid L hbi IH =>
    intro hhi
    rw [traceAuxChecked, traceAux]
    simp only [dif_pos hlh, if_pos hok, if_pos hbi]
    exact IH (by simp only [mid]; omega)
  | case2 low high bc bi hlh hok mid L hbi IH =>
    intro hhi
    rw [traceAuxChecked, traceAux]
    simp only [dif_pos hlh, if_pos hok, if_neg hbi]
    exact IH hhi
  | case3 low high bc bi hlh hok =>
    intro hhi
    exfalso
    simp only [encodeNodeOk, Bool.and_eq_true, decide_eq_true_eq] at hok
    push_neg at hok
    omega
  | case4 low high bc bi hlh =>
    intro _
    rw [traceAuxChecked, traceAux]
    simp only [dif_neg hlh]

theorem enumRecChecked_eq (samp : Nat → Nat → Nat → Nat → Nat)
    (nOrig target : Nat) (hno : nOrig < U64) :
    ∀ low high bc startIdx endIdx, high < U64 →
      enumRecChecked samp nOrig target low high bc startIdx endIdx =
        some (enumRec samp nOrig target low high bc startIdx endIdx) := by
  intro low high bc startIdx endIdx
  induction low, high, bc, startIdx, endIdx
    using enumRecChecked.induct samp nOrig target with
  | case1 low high bc startIdx endIdx hg =>
    intro _
    rw [enumRecChecked, enumRec]
    simp only [if_pos hg]
  | case2 high bc startIdx endIdx hg =>
    intro _
    rw [enumRecChecked, enumRec]
    rw [if_neg hg, if_neg hg, if_pos rfl, dif_pos rfl]
  | case3 low high bc startIdx endIdx hg hne hok mid L splitIdx hym hguard
      IH =>
    intro hhi
    rw [enumRecChecked, enumRec]
    simp only [if_neg hg, if_neg hne, dif_neg hne, if_pos hok, if_pos hym,
      if_pos hguard]
    exact IH (by simp only [mid]; omega)
  | case4 low high bc startIdx endIdx hg hne hok mid L splitIdx hym hguard =>
    intro _
    rw [enumRecChecked, enumRec]
    simp only [if_neg hg, if_neg hne, dif_neg hne, if_pos hok, if_pos hym,
      if_neg hguard]
  | case5 low high bc startIdx endIdx hg hne hok mid L R splitIdx hym
      hguard IH =>
    intro hhi
    rw [enumRecChecked, enumRec]
    simp only [if_neg hg, if_neg hne, dif_neg hne, if_pos hok, if_neg hym,
      if_pos hguard]
    exact IH hhi
  | case6 low high bc startIdx endIdx hg hne hok mid L R splitIdx hym
      hguard =>
    intro _
    rw [enumRecChecked, enumRec]
    simp only [if_neg hg, if_neg hne, dif_neg hne, if_pos hok, if_neg hym,
      if_neg hguard]
  | case7 low high bc startIdx endIdx hg hne hok =>
    intro hhi
    exfalso
    simp only [encodeNodeOk, Bool.and_eq_true, decide_eq_true_eq] at hok
    push_neg at hok
    omega

/-- C7 (amended): once constructed, `forward` and `inverse` never raise on
any nonnegative arguments, provided every tree node encoding fits an
unsigned 64-bit field, i.e. `n < 2^64` and `m ≤ 2^64`; the checked model
then returns exactly the unchecked values. -/
theorem forward_inverse_never_raise (samp : Nat → Nat → Nat → Nat → Nat)
    (n m : Nat) (hn : n < U64) (hm : m ≤ U64) :
    ∀ x y, forwardChecked samp n m x = some (forward samp n m x) ∧
      inverseChecked samp n m y = some (inverse samp n m y) := by
  intro x y
  constructor
  · rw [forwardChecked, forward]
    by_cases hx : x ≥ n
    · simp [hx]
    · rw [if_neg hx, if_neg hx, traceBall]
      by_cases hm1 : m = 1
      · simp [hm1]
      · rw [if_neg hm1, if_neg hm1]
        exact traceAuxChecked_eq samp n hn 0 (m - 1) n x (by omega)
  · rw [inverseChecked, inverse]
    by_cases hy : y ≥ m
    · simp [hy]
    · rw [if_neg hy, if_neg hy, enumerateBalls]
      by_cases hm1 : m = 1
      · simp [hm1]
      · rw [if_neg hm1, if_neg hm1]
        rw [enumRecChecked_eq samp n y hn 0 (m - 1) n 0 (n - 1) (by omega)]
        rfl

/-- Witness for the amended C7 at `n = 9`, `m = 4`, `x = 2`, `y = 3`. -/
theorem forward_inverse_never_raise_witness :
    forwardChecked sampEx 9 4 2 = some (forward sampEx 9 4 2) ∧
    inverseChecked sampEx 9 4 3 = some (inverse sampEx 9 4 3) :=
  forward_inverse_never_raise sampEx 9 4 (by norm_num [U64])
    (by norm_num [U64]) 2 3

/-- Counterexample to C7 as stated: `IPRF(key, 2^64, 2)` constructs
successfully (its validation only rejects a bad key length or a zero
parameter), yet `forward(0)` reaches `encode_node(0, 1, 2^64)` whose
`struct.pack('>QQQ', …)` raises `struct.error`, before any sampling
happens. -/
theorem forward_raises_at_huge_domain :
    iprfInit (List.replicate 16 0) (2 ^ 64) 2 ≠ none ∧
    forwardChecked sampEx (2 ^ 64) 2 0 = none := by
  constructor
  · rw [iprfInit]
    norm_num
    exact Option.some_ne_none _
  · rw [forwardChecked]
    rw [if_neg (by norm_num), if_neg (by norm_num)]
    rw [traceAuxChecked]
    norm_num [encodeNodeOk, U64]

/-! Counter-mode RNG (`table_prp.py`, class `DeterministicRNG`), modelled at
byte level.  Byte strings are lists of naturals below 256; the AES-128-ECB
block cipher is abstracted as a function on 16-byte blocks (`enc`), or as a
family indexed by the 16-byte key (`E`). -/

/-- Big-endian 8-byte encoding of a 64-bit value (`struct.pack` format
`>Q`). -/
def packBE8 (v : Nat) : List Nat :=
  [v / 2 ^ 56 % 256, v / 2 ^ 48 % 256, v / 2 ^ 40 % 256, v / 2 ^ 32 % 256,
    v / 2 ^ 24 % 256, v / 2 ^ 16 % 256, v / 2 ^ 8 % 256, v % 256]

/-- Embeds `struct.pack_into(\'>Q\', buf, off, v)`: overwrite the 8 bytes of
`buf` starting at `off` with the big-endian encoding of `v`. -/
def packInto (buf : List Nat) (off v : Nat) : List Nat :=
  buf.take off ++ packBE8 v ++ buf.drop (off + 8)

/-- Embeds `struct.unpack(\'>Q\', bs)[0]`: big-endian decode. -/
def unpackBE8 (bs : List Nat) : Nat :=
  bs.foldl (fun acc b => acc * 256 + b) 0

/-- Embeds `DeterministicRNG.uint64` (table_prp.py lines 186-205) for cipher
`enc` and current counter `c`: two `pack_into` writes build the input block
inside a zeroed 16-byte buffer, the block is encrypted, the counter is
incremented, and the first 8 ciphertext bytes are returned big-endian. -/
def uint64 (enc : List Nat → List Nat) (c : Nat) : Nat × Nat :=
  let block := packInto (packInto (List.replicate 16 0) 0 c) 8 (c >>> 32)
  (unpackBE8 ((enc block).take 8), c + 1)

/-- Embeds `DeterministicRNG.__init__` key handling (table_prp.py lines
171-175): a key shorter than 16 bytes is right-padded with zero bytes, then
the first 16 bytes are kept (`self.key = key[:16]`). -/
def rngKey (key : List Nat) : List Nat :=
  (if key.length < 16 then key ++ List.replicate (16 - key.length) 0
    else key).take 16

/-- Value of the `k`-th `uint64()` call after the state has counter `c`,
threading the counter exactly as the mutable `self.counter` does. -/
def rngStreamFrom (enc : List Nat → List Nat) : Nat → Nat → Nat
  | c, 0 => (uint64 enc c).1
  | c, k + 1 => rngStreamFrom enc (uint64 enc c).2 k

/-- C9: each `uint64()` call builds its 16-byte block with the counter `c`
big-endian in the high 8 bytes and `c >> 32` big-endian in the low 8 bytes,
encrypts it, returns the high 8 ciphertext bytes as a big-endian u64 and
increments the counter by one. -/
theorem uint64_block_layout (enc : List Nat → List Nat) (c : Nat)
    (_hc : c < 2 ^ 64) :
    packInto (packInto (List.replicate 16 0) 0 c) 8 (c >>> 32) =
      packBE8 c ++ packBE8 (c >>> 32) ∧
    uint64 enc c =
      (unpackBE8 ((enc (packBE8 c ++ packBE8 (c >>> 32))).take 8), c + 1) := by
  constructor
  · rfl
  · rfl

/-- Witness for C9 at `c = 5` with the identity cipher. -/
theorem uint64_block_layout_witness :
    packInto (packInto (List.replicate 16 0) 0 5) 8 (5 >>> 32) =
      packBE8 5 ++ packBE8 (5 >>> 32) ∧
    uint64 (fun b => b) 5 =
      (unpackBE8 ((packBE8 5 ++ packBE8 (5 >>> 32)).take 8), 5 + 1) :=
  uint64_block_layout (fun b => b) 5 (by norm_num)

/-- C10: the RNG constructor accepts keys of every length: the normalised
key always has exactly 16 bytes (so the cipher keying cannot fail), a short
key is zero-padded on the right, a long key is truncated to its first 16
bytes, and two keys agreeing on their first 16 bytes after padding yield
identical output streams under any cipher family `E`. -/
theorem rngKey_pad_truncate (key1 key2 : List Nat)
    (E : List Nat → List Nat → List Nat) :
    (rngKey key1).length = 16 ∧
    (key1.length < 16 →
      rngKey key1 = key1 ++ List.replicate (16 - key1.length) 0) ∧
    (16 ≤ key1.length → rngKey key1 = key1.take 16) ∧
    ((key1 ++ List.replicate 16 0).take 16 =
        (key2 ++ List.replicate 16 0).take 16 →
      ∀ i, rngStreamFrom (E (rngKey key1)) 0 i =
        rngStreamFrom (E (rngKey key2)) 0 i) := by
  have hnorm : ∀ key : List Nat,
      rngKey key = (key ++ List.replicate 16 0).take 16 := by
    intro key
    rw [rngKey, List.take_append_eq_append_take, List.take_replicate]
    by_cases h : key.length < 16
    · rw [if_pos h, List.take_append_eq_append_take, List.take_replicate]
      have hmm : min (16 - key.length) (16 - key.length) =
          min (16 - key.length) 16 := by omega
      rw [hmm]
    · rw [if_neg h]
      have : min (16 - key.length) 16 = 0 := by omega
      rw [this, List.replicate_zero, List.append_nil]
  refine ⟨?_, ?_, ?_, ?_⟩
  · rw [hnorm key1, List.length_take, List.length_append,
      List.length_replicate]
    omega
  · intro h
    rw [rngKey, if_pos h]
    exact List.take_of_length_le (by simp; omega)
  · intro h
    rw [rngKey, if_neg (by omega)]
  · intro h i
    rw [hnorm key1, hnorm key2, h]

/-- Witness for C10: the 3-byte key `[1, 2, 3]` is padded with 13 zero
bytes, an 18-byte key is truncated, and the padded short key produces the
same stream as a 17-byte key with the same first 16 bytes. -/
theorem rngKey_pad_truncate_witness :
    (rngKey [1, 2, 3]).length = 16 ∧
    rngKey [1, 2, 3] = [1, 2, 3] ++ List.replicate 13 0 ∧
    rngKey (List.replicate 18 5) = (List.replicate 18 5).take 16 ∧
    rngStreamFrom ((fun _ b => b) (rngKey [1, 2, 3])) 0 2 =
      rngStreamFrom ((fun _ b => b)
        (rngKey ([1, 2, 3] ++ List.replicate 13 0 ++ [9]))) 0 2 := by
  have h1 := rngKey_pad_truncate [1, 2, 3]
    ([1, 2, 3] ++ List.replicate 13 0 ++ [9]) (fun _ b => b)
  have h2 := rngKey_pad_truncate (List.replicate 18 5) [] (fun _ b => b)
  exact ⟨h1.1, h1.2.1 (by norm_num), h2.2.2.1 (by simp),
    h1.2.2.2 (by decide) 2⟩

/-! Binary64 model for `get_expected_preimage_size` (claim C6).  The Python
expression `int(math.ceil(self.domain / self.range_size))` divides two
Python integers with `/`, which CPython computes as the correctly rounded
(round-to-nearest, ties-to-even) binary64 value of the exact quotient;
`math.ceil` on a finite double is exact.  The rounding is modelled exactly
on rationals: a positive value is rounded to the nearest multiple of
`2^(-rnScale q)` with ties to even, where the scale gives 53 significand
bits in the normal range and degrades to the fixed subnormal step `2^-1074`
below `2^-1022`, so quotients up to `2^-1075` underflow to `0` just as
binary64 division does.  A rounded quotient of `2^1024` or more makes the
division overflow, which CPython surfaces as `OverflowError`. -/

/-- Floor logarithm in base 2 of a positive rational: the unique `e` with
`2^e ≤ q < 2^(e+1)`. -/
def qlog2 (q : ℚ) : ℤ :=
  if 1 ≤ q then (Nat.log 2 ⌊q⌋.toNat : ℤ)
  else -(Nat.clog 2 ⌈q⁻¹⌉.toNat : ℤ)

/-- Binary64 rounding step for a positive rational, as a power of two:
`2^-(52 - qlog2 q)` (53 significand bits) in the normal range, capped at
the subnormal step `2^-1074` for values below `2^-1022`. -/
def rnScale (q : ℚ) : ℤ :=
  min (52 - qlog2 q) 1074

/-- Significand of the nearest binary64 value: the scaled value rounded to
an integer, ties going to the even candidate. -/
def rnMantissa (q : ℚ) : ℤ :=
  if q * 2 ^ rnScale q - (⌊q * 2 ^ rnScale q⌋ : ℚ) < 1 / 2 then
    ⌊q * 2 ^ rnScale q⌋
  else if 1 / 2 < q * 2 ^ rnScale q - (⌊q * 2 ^ rnScale q⌋ : ℚ) then
    ⌊q * 2 ^ rnScale q⌋ + 1
  else if ⌊q * 2 ^ rnScale q⌋ % 2 = 0 then ⌊q * 2 ^ rnScale q⌋
  else ⌊q * 2 ^ rnScale q⌋ + 1

/-- Round a positive rational to the nearest binary64 value (round to
nearest, ties to even, subnormals included, unbounded above); nonpositive
input returns 0 (unused). -/
def rn53 (q : ℚ) : ℚ :=
  if q ≤ 0 then 0 else (rnMantissa q : ℚ) / 2 ^ rnScale q

/-- Embeds `IPRF.get_expected_preimage_size` (iprf.py lines 105-112):
`int(math.ceil(self.domain / self.range_size))` with `/` the correctly
rounded binary64 division of the two integers.  `none` is the
`OverflowError` that CPython raises when the rounded quotient reaches
`2^1024`. -/
def get_expected_preimage_size (domain range_size : Nat) : Option ℤ :=
  if rn53 ((domain : ℚ) / (range_size : ℚ)) < 2 ^ (1024 : ℤ) then
    some ⌈rn53 ((domain : ℚ) / (range_size : ℚ))⌉
  else none

theorem qlog2_spec (q : ℚ) (hq : 0 < q) :
    (2 : ℚ) ^ qlog2 q ≤ q ∧ q < 2 ^ (qlog2 q + 1) := by
  rw [qlog2]
  by_cases h1 : 1 ≤ q
  · rw [if_pos h1]
    set v : Nat := ⌊q⌋.toNat with hv
    have hfloor1 : 1 ≤ ⌊q⌋ := Int.le_floor.2 (by exact_mod_cast h1)
    have hvq : (v : ℚ) ≤ q := by
      rw [hv]
      rw [show ((⌊q⌋.toNat : Nat) : ℚ) = ((⌊q⌋.toNat : ℤ) : ℚ) by push_cast; ring]
      rw [Int.toNat_of_nonneg (by omega)]
      exact Int.floor_le q
    have hqv : q < (v : ℚ) + 1 := by
      rw [hv]
      rw [show ((⌊q⌋.toNat : Nat) : ℚ) = ((⌊q⌋.toNat : ℤ) : ℚ) by push_cast; ring]
      rw [Int.toNat_of_nonneg (by omega)]
      exact Int.lt_floor_add_one q
    have hv1 : v ≠ 0 := by
      rw [hv]
      omega
    have hlow : 2 ^ Nat.log 2 v ≤ v := Nat.pow_log_le_self 2 hv1
    have hhigh : v < 2 ^ (Nat.log 2 v + 1) := Nat.lt_pow_succ_log_self (by norm_num) v
    constructor
    · calc (2 : ℚ) ^ (Nat.log 2 v : ℤ) = ((2 ^ Nat.log 2 v : Nat) : ℚ) := by
            push_cast
            rw [zpow_natCast]
      _ ≤ (v : ℚ) := by exact_mod_cast hlow
      _ ≤ q := hvq
    · calc q < (v : ℚ) + 1 := hqv
      _ ≤ ((2 ^ (Nat.log 2 v + 1) : Nat) : ℚ) := by exact_mod_cast hhigh
      _ = 2 ^ ((Nat.log 2 v : ℤ) + 1) := by norm_cast
  · rw [if_neg h1]
    push_neg at h1
    have hz1 : 1 < q⁻¹ := (one_lt_inv₀ hq).2 h1
    have hceil2 : 2 ≤ ⌈q⁻¹⌉ := by
      have := Int.le_ceil q⁻¹
      have h2 : (1 : ℚ) < (⌈q⁻¹⌉ : ℚ) := lt_of_lt_of_le hz1 this
      exact_mod_cast (by exact_mod_cast h2 : (1 : ℤ) < ⌈q⁻¹⌉)
    set u : Nat := ⌈q⁻¹⌉.toNat with hu
    have hu2 : 2 ≤ u := by
      rw [hu]
      omega
    set t : Nat := Nat.clog 2 u with ht
    have ht1 : 1 ≤ t := Nat.clog_pos (by norm_num) hu2
    have hut : u ≤ 2 ^ t := Nat.le_pow_clog (by norm_num) u
    have hut2 : 2 ^ (t - 1) < u :=
      (Nat.pow_lt_iff_lt_clog (by norm_num)).2 (by omega)
    have huq : q⁻¹ ≤ (u : ℚ) := by
      rw [hu]
      rw [show ((⌈q⁻¹⌉.toNat : Nat) : ℚ) = ((⌈q⁻¹⌉.toNat : ℤ) : ℚ) by push_cast; ring]
      rw [Int.toNat_of_nonneg (by omega)]
      exact Int.le_ceil _
    have hqu : (u : ℚ) - 1 < q⁻¹ := by
      rw [hu]
      rw [show ((⌈q⁻¹⌉.toNat : Nat) : ℚ) = ((⌈q⁻¹⌉.toNat : ℤ) : ℚ) by push_cast; ring]
      rw [Int.toNat_of_nonneg (by omega)]
      have := Int.ceil_lt_add_one q⁻¹
      linarith
    constructor
    · rw [show (-(t : ℤ)) = -(t : ℤ) from rfl, zpow_neg]
      rw [inv_le_comm₀ (by positivity) hq]
      calc q⁻¹ ≤ (u : ℚ) := huq
      _ ≤ ((2 ^ t : Nat) : ℚ) := by exact_mod_cast hut
      _ = 2 ^ (t : ℤ) := by
            push_cast
            rw [zpow_natCast]
    · have h2t1 : ((2 ^ (t - 1) : Nat) : ℚ) < q⁻¹ := by
        calc ((2 ^ (t - 1) : Nat) : ℚ) ≤ (u : ℚ) - 1 := by
              have h3 : (2 ^ (t - 1) : Nat) + 1 ≤ u := by omega
              have h4 : ((2 ^ (t - 1) : Nat) : ℚ) + 1 ≤ (u : ℚ) := by
                exact_mod_cast h3
              linarith
        _ < q⁻¹ := hqu
      have hq2 : q < ((2 ^ (t - 1) : Nat) : ℚ)⁻¹ := by
        have h5 := (lt_inv_comm₀ (by positivity) hq).1 h2t1
        simpa using h5
      calc q < ((2 ^ (t - 1) : Nat) : ℚ)⁻¹ := hq2
      _ = 2 ^ (-(t : ℤ) + 1) := by
            push_cast
            rw [← zpow_natCast (2 : ℚ) (t - 1), ← zpow_neg]
            congr 1
            omega

theorem rnScale_pow_pos (q : ℚ) : (0 : ℚ) < 2 ^ rnScale q :=
  zpow_pos (by norm_num) _

/-- In the binary64 normal range (`q ≥ 2^-1022`) the rounding step is the
full 53-significand-bit one. -/
theorem rnScale_eq_of_normal {q : ℚ} (he : -1022 ≤ qlog2 q) :
    rnScale q = 52 - qlog2 q := by
  rw [rnScale]
  omega

/-- The scaled value lies in `[2^52, 2^53)` in the normal range. -/
theorem rn_scaled_bounds (q : ℚ) (hq : 0 < q) (he : -1022 ≤ qlog2 q) :
    (2 : ℚ) ^ (52 : ℤ) ≤ q * 2 ^ rnScale q ∧
      q * 2 ^ rnScale q < 2 ^ (53 : ℤ) := by
  obtain ⟨hlo, hhi⟩ := qlog2_spec q hq
  have hp : (0 : ℚ) < 2 ^ rnScale q := rnScale_pow_pos q
  have hsc : rnScale q = 52 - qlog2 q := rnScale_eq_of_normal he
  constructor
  · calc (2 : ℚ) ^ (52 : ℤ) = 2 ^ qlog2 q * 2 ^ rnScale q := by
          rw [← zpow_add₀ (by norm_num : (2 : ℚ) ≠ 0)]
          congr 1
          rw [hsc]
          ring
    _ ≤ q * 2 ^ rnScale q := by
          exact mul_le_mul_of_nonneg_right hlo (le_of_lt hp)
  · calc q * 2 ^ rnScale q < 2 ^ (qlog2 q + 1) * 2 ^ rnScale q := by
          exact mul_lt_mul_of_pos_right hhi hp
    _ = 2 ^ (53 : ℤ) := by
          rw [← zpow_add₀ (by norm_num : (2 : ℚ) ≠ 0)]
          congr 1
          rw [hsc]
          ring

/-- The rounded significand is within half a unit of the scaled value and,
in the normal range, lies in `[2^52, 2^53]`. -/
theorem rnMantissa_props (q : ℚ) (hq : 0 < q) (he : -1022 ≤ qlog2 q) :
    |(rnMantissa q : ℚ) - q * 2 ^ rnScale q| ≤ 1 / 2 ∧
      (2 : ℤ) ^ 52 ≤ rnMantissa q ∧ rnMantissa q ≤ 2 ^ 53 := by
  obtain ⟨hlo, hhi⟩ := rn_scaled_bounds q hq he
  set x : ℚ := q * 2 ^ rnScale q with hx
  have hfl : (⌊x⌋ : ℚ) ≤ x := Int.floor_le x
  have hfl2 : x < (⌊x⌋ : ℚ) + 1 := Int.lt_floor_add_one x
  have hm0lo : (2 : ℤ) ^ 52 ≤ ⌊x⌋ := by
    apply Int.le_floor.2
    calc ((2 ^ 52 : ℤ) : ℚ) = 2 ^ (52 : ℤ) := by norm_num
    _ ≤ x := hlo
  have hm0hi : ⌊x⌋ < 2 ^ 53 := by
    have : (⌊x⌋ : ℚ) < 2 ^ (53 : ℤ) := lt_of_le_of_lt hfl hhi
    have h2 : (⌊x⌋ : ℚ) < ((2 ^ 53 : ℤ) : ℚ) := by
      calc (⌊x⌋ : ℚ) < 2 ^ (53 : ℤ) := this
      _ = ((2 ^ 53 : ℤ) : ℚ) := by norm_num
    exact_mod_cast h2
  rw [rnMantissa, ← hx]
  split_ifs with hr1 hr2 heven
  · refine ⟨?_, hm0lo, by omega⟩
    rw [abs_sub_le_iff]
    constructor
    · linarith
    · linarith
  · push_neg at hr1
    refine ⟨?_, by omega, by omega⟩
    rw [abs_sub_le_iff]
    push_cast
    constructor
    · linarith
    · linarith
  · push_neg at hr1 hr2
    refine ⟨?_, hm0lo, by omega⟩
    rw [abs_sub_le_iff]
    constructor
    · linarith
    · linarith
  · push_neg at hr1 hr2
    refine ⟨?_, by omega, by omega⟩
    rw [abs_sub_le_iff]
    push_cast
    constructor
    · linarith
    · linarith

/-- In the normal range the rounded value is within a half ulp of `q`,
positive and at most `2^(qlog2 q + 1)`. -/
theorem rn53_props (q : ℚ) (hq : 0 < q) (he : -1022 ≤ qlog2 q) :
    |rn53 q - q| ≤ 2 ^ (qlog2 q - 53) ∧
      0 < rn53 q ∧ rn53 q ≤ 2 ^ (qlog2 q + 1) ∧
      rn53 q = (rnMantissa q : ℚ) / 2 ^ rnScale q := by
  obtain ⟨hclose, hmlo, hmhi⟩ := rnMantissa_props q hq he
  have hp : (0 : ℚ) < 2 ^ rnScale q := rnScale_pow_pos q
  have hsc : rnScale q = 52 - qlog2 q := rnScale_eq_of_normal he
  have hrn : rn53 q = (rnMantissa q : ℚ) / 2 ^ rnScale q := by
    rw [rn53, if_neg (not_le.2 hq)]
  refine ⟨?_, ?_, ?_, hrn⟩
  · rw [hrn]
    have hrewrite : (rnMantissa q : ℚ) / 2 ^ rnScale q - q =
        ((rnMantissa q : ℚ) - q * 2 ^ rnScale q) / 2 ^ rnScale q := by
      field_simp
      ring
    rw [hrewrite, abs_div, abs_of_pos hp]
    rw [div_le_iff₀ hp]
    calc |(rnMantissa q : ℚ) - q * 2 ^ rnScale q| ≤ 1 / 2 := hclose
    _ = 2 ^ (qlog2 q - 53) * 2 ^ rnScale q := by
          rw [← zpow_add₀ (by norm_num : (2 : ℚ) ≠ 0), hsc]
          rw [show qlog2 q - 53 + (52 - qlog2 q) = -1 by ring]
          rw [zpow_neg, zpow_one]
          norm_num
  · rw [hrn]
    apply div_pos _ hp
    have : ((0 : ℤ) : ℚ) < (rnMantissa q : ℚ) := by
      exact_mod_cast lt_of_lt_of_le (by positivity) hmlo
    exact_mod_cast this
  · rw [hrn, div_le_iff₀ hp]
    calc (rnMantissa q : ℚ) ≤ ((2 ^ 53 : ℤ) : ℚ) := by exact_mod_cast hmhi
    _ = 2 ^ (53 : ℤ) := by norm_num
    _ = 2 ^ (qlog2 q + 1) * 2 ^ rnScale q := by
          rw [← zpow_add₀ (by norm_num : (2 : ℚ) ≠ 0)]
          congr 1
          rw [hsc]
          ring

theorem qlog2_nonneg_of_one_le {q : ℚ} (h1 : 1 ≤ q) : 0 ≤ qlog2 q := by
  obtain ⟨_, hhi⟩ := qlog2_spec q (by linarith)
  have h0 : (2 : ℚ) ^ (0 : ℤ) < 2 ^ (qlog2 q + 1) := by
    rw [zpow_zero]
    exact lt_of_le_of_lt h1 hhi
  have := (zpow_lt_zpow_iff_right₀ (by norm_num : (1 : ℚ) < 2)).1 h0
  omega

theorem qlog2_le_of_le {q : ℚ} (hq : 0 < q) {c : ℤ} (hc : q ≤ 2 ^ c) :
    qlog2 q ≤ c := by
  obtain ⟨hlo, _⟩ := qlog2_spec q hq
  exact (zpow_le_zpow_iff_right₀ (by norm_num : (1 : ℚ) < 2)).1
    (le_trans hlo hc)

theorem qlog2_neg_of_lt_one {q : ℚ} (hq : 0 < q) (h1 : q < 1) :
    qlog2 q + 1 ≤ 0 := by
  obtain ⟨hlo, _⟩ := qlog2_spec q hq
  have h0 : (2 : ℚ) ^ qlog2 q < 2 ^ (0 : ℤ) := by
    rw [zpow_zero]
    exact lt_of_le_of_lt hlo h1
  have := (zpow_lt_zpow_iff_right₀ (by norm_num : (1 : ℚ) < 2)).1 h0
  omega

/-- Binary64 rounding is exact on integers up to `2^52`. -/
theorem rn53_intCast (k : ℤ) (h1 : 1 ≤ k) (h52 : k ≤ 2 ^ 52) :
    rn53 (k : ℚ) = (k : ℚ) := by
  have hq : (0 : ℚ) < (k : ℚ) := by exact_mod_cast h1
  set e : ℤ := qlog2 (k : ℚ) with he
  have he0 : 0 ≤ e := qlog2_nonneg_of_one_le (by exact_mod_cast h1)
  have he52 : e ≤ 52 := by
    apply qlog2_le_of_le hq
    calc (k : ℚ) ≤ ((2 ^ 52 : ℤ) : ℚ) := by exact_mod_cast h52
    _ = 2 ^ (52 : ℤ) := by norm_num
  have hsnn : (0 : ℤ) ≤ 52 - e := by omega
  have h2s : ((2 ^ (52 - e).toNat : ℤ) : ℚ) = 2 ^ (52 - e) := by
    push_cast
    rw [← zpow_natCast (2 : ℚ), Int.toNat_of_nonneg hsnn]
  have hs : rnScale (k : ℚ) = 52 - e := by
    rw [rnScale_eq_of_normal (by omega), he]
  have hxint : (k : ℚ) * 2 ^ rnScale (k : ℚ) =
      ((k * 2 ^ (52 - e).toNat : ℤ) : ℚ) := by
    rw [hs, ← h2s]
    push_cast
    ring
  have hfloor : ⌊(k : ℚ) * 2 ^ rnScale (k : ℚ)⌋ =
      k * 2 ^ (52 - e).toNat := by
    rw [hxint, Int.floor_intCast]
  have hmant : rnMantissa (k : ℚ) = k * 2 ^ (52 - e).toNat := by
    rw [rnMantissa, hfloor, hxint]
    rw [if_pos]
    rw [sub_self]
    norm_num
  rw [rn53, if_neg (not_le.2 hq), hmant, hs]
  rw [← h2s]
  push_cast
  rw [mul_div_assoc, div_self (by positivity), mul_one]

/-- C6 (amended): for every constructed iPRF with `n ≤ 2^52` and
`m ≤ 2^1022` (far beyond the production regime of `n ≈ 10^7`),
`get_expected_preimage_size` returns exactly `⌈n / m⌉`; in general the
code returns the ceiling of the binary64 rounding of `n / m`, which can
drop below the exact ceiling once `n` exceeds `2^53` and which underflows
to `0` once `n / m` drops to `2^-1075`. -/
theorem get_expected_preimage_size_eq_ceil (n m : Nat) (hn : 1 ≤ n)
    (hm : 1 ≤ m) (hbound : n ≤ 2 ^ 52) (hmbound : m ≤ 2 ^ 1022) :
    get_expected_preimage_size n m = some ⌈(n : ℚ) / (m : ℚ)⌉ := by
  have hmq : (0 : ℚ) < (m : ℚ) := by exact_mod_cast hm
  have hnq : (0 : ℚ) < (n : ℚ) := by exact_mod_cast hn
  set q : ℚ := (n : ℚ) / (m : ℚ) with hqdef
  have hq : 0 < q := div_pos hnq hmq
  rw [get_expected_preimage_size, ← hqdef]
  have hqlow : (2 : ℚ) ^ (-1022 : ℤ) ≤ q := by
    rw [hqdef, le_div_iff₀ hmq]
    have h2 : (m : ℚ) ≤ 2 ^ (1022 : ℤ) := by
      calc (m : ℚ) ≤ ((2 ^ 1022 : ℕ) : ℚ) := by exact_mod_cast hmbound
      _ = 2 ^ (1022 : ℤ) := by
            push_cast
            rw [← zpow_natCast (2 : ℚ) 1022]
            norm_num
    calc (2 : ℚ) ^ (-1022 : ℤ) * (m : ℚ)
        ≤ 2 ^ (-1022 : ℤ) * 2 ^ (1022 : ℤ) :=
          mul_le_mul_of_nonneg_left h2
            (le_of_lt (zpow_pos (by norm_num) _))
    _ = 1 := by
          rw [← zpow_add₀ (by norm_num : (2 : ℚ) ≠ 0)]
          norm_num
    _ ≤ (n : ℚ) := by exact_mod_cast hn
  have he1022 : -1022 ≤ qlog2 q := by
    obtain ⟨_, hhi⟩ := qlog2_spec q hq
    have h0 : (2 : ℚ) ^ (-1022 : ℤ) < 2 ^ (qlog2 q + 1) :=
      lt_of_le_of_lt hqlow hhi
    have := (zpow_lt_zpow_iff_right₀ (by norm_num : (1 : ℚ) < 2)).1 h0
    omega
  have hqn : q ≤ (n : ℚ) := by
    rw [hqdef]
    exact div_le_self (le_of_lt hnq) (by exact_mod_cast hm)
  have he52 : qlog2 q ≤ 52 := by
    apply qlog2_le_of_le hq
    calc q ≤ (n : ℚ) := hqn
    _ ≤ ((2 ^ 52 : ℤ) : ℚ) := by exact_mod_cast hbound
    _ = 2 ^ (52 : ℤ) := by norm_num
  obtain ⟨hclose, hrnpos, hrnhi, hrneq⟩ := rn53_props q hq he1022
  have hov : rn53 q < 2 ^ (1024 : ℤ) :=
    lt_of_le_of_lt hrnhi
      (zpow_lt_zpow_right₀ (by norm_num : (1 : ℚ) < 2) (by omega))
  rw [if_pos hov]
  congr 1
  by_cases hlt : n < m
  · have hq1 : q < 1 := by
      rw [hqdef, div_lt_one hmq]
      exact_mod_cast hlt
    have he : qlog2 q + 1 ≤ 0 := qlog2_neg_of_lt_one hq hq1
    have hrn1 : rn53 q ≤ 1 := by
      calc rn53 q ≤ 2 ^ (qlog2 q + 1) := hrnhi
      _ ≤ 2 ^ (0 : ℤ) :=
            zpow_le_zpow_right₀ (by norm_num : (1 : ℚ) ≤ 2) he
      _ = 1 := zpow_zero 2
    have h1 : ⌈q⌉ = 1 := by
      rw [Int.ceil_eq_iff]
      constructor
      · push_cast
        linarith
      · push_cast
        linarith
    have h2 : ⌈rn53 q⌉ = 1 := by
      rw [Int.ceil_eq_iff]
      constructor
      · push_cast
        linarith
      · push_cast
        linarith
    rw [h1, h2]
  · push_neg at hlt
    have hq1 : 1 ≤ q := by
      rw [hqdef, le_div_iff₀ hmq, one_mul]
      exact_mod_cast hlt
    have he0 : 0 ≤ qlog2 q := qlog2_nonneg_of_one_le hq1
    by_cases hdvd : m ∣ n
    · have hcast : ((n / m : ℕ) : ℚ) = q :=
        Nat.cast_div hdvd (ne_of_gt hmq)
      have hk1 : 1 ≤ ((n / m : ℕ) : ℤ) := by
        have h3 : 1 ≤ n / m := (Nat.one_le_div_iff (by omega)).2 hlt
        exact_mod_cast h3
      have hk52 : ((n / m : ℕ) : ℤ) ≤ 2 ^ 52 := by
        have h3 : n / m ≤ 2 ^ 52 := le_trans (Nat.div_le_self n m) hbound
        exact_mod_cast h3
      have hqint : q = (((n / m : ℕ) : ℤ) : ℚ) := by
        rw [← hcast]
        push_cast
        rfl
      rw [hqint, rn53_intCast _ hk1 hk52]
    · set e : ℤ := qlog2 q with he
      set k : ℤ := ⌊q⌋ with hk
      have hk1 : 1 ≤ k := by
        rw [hk]
        exact Int.le_floor.2 (by push_cast; linarith)
      have hkq : (k : ℚ) ≤ q := Int.floor_le q
      have hqk1 : q < (k : ℚ) + 1 := Int.lt_floor_add_one q
      have hkmn : k * (m : ℤ) + 1 ≤ (n : ℤ) := by
        have h1 : (k : ℚ) * (m : ℚ) ≤ (n : ℚ) := by
          have h0 := hkq
          rw [hqdef] at h0
          calc (k : ℚ) * (m : ℚ) ≤ ((n : ℚ) / (m : ℚ)) * (m : ℚ) :=
                mul_le_mul_of_nonneg_right h0 (le_of_lt hmq)
          _ = (n : ℚ) := div_mul_cancel₀ _ (ne_of_gt hmq)
        have h2 : k * (m : ℤ) ≤ (n : ℤ) := by exact_mod_cast h1
        rcases lt_or_eq_of_le h2 with h3 | h3
        · omega
        · exfalso
          apply hdvd
          refine ⟨k.toNat, ?_⟩
          have h4 : ((k.toNat : ℤ)) = k := Int.toNat_of_nonneg (by omega)
          have h5 : (n : ℤ) = (m : ℤ) * (k.toNat : ℤ) := by
            rw [h4]
            linarith
          exact_mod_cast h5
      have hfrac : (k : ℚ) + 1 / (m : ℚ) ≤ q := by
        have h1 : ((k * (m : ℤ) + 1 : ℤ) : ℚ) ≤ ((n : ℤ) : ℚ) := by
          exact_mod_cast hkmn
        push_cast at h1
        rw [hqdef, le_div_iff₀ hmq]
        calc ((k : ℚ) + 1 / (m : ℚ)) * (m : ℚ)
            = (k : ℚ) * (m : ℚ) + (1 / (m : ℚ)) * (m : ℚ) := by ring
        _ = (k : ℚ) * (m : ℚ) + 1 := by
              rw [one_div_mul_cancel (ne_of_gt hmq)]
        _ ≤ (n : ℚ) := by linarith
      have hm52 : (m : ℚ) * 2 ^ e ≤ 2 ^ (52 : ℤ) := by
        have h1 : (2 : ℚ) ^ e ≤ q := (qlog2_spec q hq).1
        rw [hqdef, le_div_iff₀ hmq] at h1
        calc (m : ℚ) * 2 ^ e = 2 ^ e * (m : ℚ) := by ring
        _ ≤ (n : ℚ) := h1
        _ ≤ ((2 ^ 52 : ℤ) : ℚ) := by exact_mod_cast hbound
        _ = 2 ^ (52 : ℤ) := by norm_num
      have hm2 : (m : ℚ) ≤ 2 ^ ((52 : ℤ) - e) := by
        have hpe : (0 : ℚ) < 2 ^ e := zpow_pos (by norm_num) e
        have h3 : (m : ℚ) ≤ 2 ^ (52 : ℤ) / 2 ^ e := (le_div_iff₀ hpe).2 hm52
        calc (m : ℚ) ≤ 2 ^ (52 : ℤ) / 2 ^ e := h3
        _ = 2 ^ ((52 : ℤ) - e) := by
              rw [← zpow_sub₀ (by norm_num : (2 : ℚ) ≠ 0)]
      have hhalfm : (2 : ℚ) ^ (e - 53) * (m : ℚ) < 1 := by
        calc (2 : ℚ) ^ (e - 53) * (m : ℚ)
            ≤ 2 ^ (e - 53) * 2 ^ ((52 : ℤ) - e) :=
              mul_le_mul_of_nonneg_left hm2
                (le_of_lt (zpow_pos (by norm_num) _))
        _ = 2 ^ (-1 : ℤ) := by
              rw [← zpow_add₀ (by norm_num : (2 : ℚ) ≠ 0)]
              congr 1
              ring
        _ < 1 := by
              rw [zpow_neg, zpow_one]
              norm_num
      have hhalf : (2 : ℚ) ^ (e - 53) < 1 / (m : ℚ) := by
        rw [lt_div_iff₀ hmq]
        exact hhalfm
      have hlow : (k : ℚ) < rn53 q := by
        have h1 : q - 2 ^ (e - 53) ≤ rn53 q := by
          have h2 := abs_sub_le_iff.1 hclose
          linarith [h2.2]
        linarith [hfrac, hhalf]
      have hup : rn53 q ≤ (k : ℚ) + 1 := by
        have hs : rnScale q = 52 - e := by
          rw [rnScale_eq_of_normal he1022, he]
        have hsnn : (0 : ℤ) ≤ 52 - e := by omega
        have h2s : ((2 ^ (52 - e).toNat : ℤ) : ℚ) = 2 ^ ((52 : ℤ) - e) := by
          push_cast
          rw [← zpow_natCast (2 : ℚ), Int.toNat_of_nonneg hsnn]
        have hps : (0 : ℚ) < 2 ^ ((52 : ℤ) - e) := zpow_pos (by norm_num) _
        set T : ℤ := (k + 1) * 2 ^ (52 - e).toNat with hT
        have hTval : ((T : ℚ)) = ((k : ℚ) + 1) * 2 ^ ((52 : ℤ) - e) := by
          rw [hT]
          push_cast [← h2s]
          ring
        have hmrT : rnMantissa q ≤ T := by
          by_contra hcon
          push_neg at hcon
          have h4 : ((T : ℚ) + 1) ≤ (rnMantissa q : ℚ) := by
            have h5 : T + 1 ≤ rnMantissa q := hcon
            exact_mod_cast h5
          have h5 : ((T : ℚ) + 1) / 2 ^ rnScale q ≤ rn53 q := by
            rw [hrneq]
            gcongr
          have h6 : ((T : ℚ) + 1) / 2 ^ rnScale q =
              (k : ℚ) + 1 + 2 ^ (e - 52) := by
            rw [hs, hTval]
            rw [add_div, mul_div_assoc, div_self (ne_of_gt hps)]
            rw [mul_one, one_div, ← zpow_neg]
            congr 2
            ring
          have h7 : rn53 q ≤ q + 2 ^ (e - 53) := by
            have h8 := abs_sub_le_iff.1 hclose
            linarith [h8.1]
          have h9 : (2 : ℚ) ^ (e - 53) < 2 ^ (e - 52) :=
            zpow_lt_zpow_right₀ (by norm_num) (by omega)
          rw [h6] at h5
          linarith [hqk1]
        have h10 : rn53 q ≤ (T : ℚ) / 2 ^ rnScale q := by
          rw [hrneq]
          gcongr
        have h11 : (T : ℚ) / 2 ^ rnScale q = (k : ℚ) + 1 := by
          rw [hs, hTval, mul_div_assoc, div_self (ne_of_gt hps), mul_one]
        rw [h11] at h10
        exact h10
      have hceilq : ⌈q⌉ = k + 1 := by
        rw [Int.ceil_eq_iff]
        constructor
        · push_cast
          have h12 : (0 : ℚ) < 1 / (m : ℚ) := by positivity
          linarith [hfrac]
        · push_cast
          linarith [hqk1]
      have hceilrn : ⌈rn53 q⌉ = k + 1 := by
        rw [Int.ceil_eq_iff]
        constructor
        · push_cast
          linarith [hlow]
        · push_cast
          linarith [hup]
      rw [hceilq, hceilrn]

/-- Witness for the amended C6 at `n = 10`, `m = 3` (with `⌈10/3⌉ = 4`). -/
theorem get_expected_preimage_size_eq_ceil_witness :
    get_expected_preimage_size 10 3 =
      some ⌈((10 : Nat) : ℚ) / ((3 : Nat) : ℚ)⌉ :=
  get_expected_preimage_size_eq_ceil 10 3 (by norm_num) (by norm_num)
    (by norm_num) (by norm_num)

/-- Counterexample to C6 as stated, at both ends of the binary64 range: at
`n = 2^54 + 1`, `m = 1` the division rounds `n / m` down to `2^54`, so the
code returns `2^54` instead of the exact ceiling `2^54 + 1`; at `n = 1`,
`m = 2^1080` the quotient underflows to `0.0` and the code returns `0`
instead of the exact ceiling `1`.  Both parameter pairs construct
successfully. -/
theorem expected_preimage_size_not_exact :
    get_expected_preimage_size (2 ^ 54 + 1) 1 = some (2 ^ 54) ∧
    ⌈(((2 ^ 54 + 1 : Nat)) : ℚ) / ((1 : Nat) : ℚ)⌉ = 2 ^ 54 + 1 ∧
    get_expected_preimage_size (2 ^ 54 + 1) 1 ≠
      some ⌈(((2 ^ 54 + 1 : Nat)) : ℚ) / ((1 : Nat) : ℚ)⌉ ∧
    get_expected_preimage_size 1 (2 ^ 1080) = some 0 ∧
    ⌈((1 : Nat) : ℚ) / (((2 ^ 1080 : Nat)) : ℚ)⌉ = 1 ∧
    get_expected_preimage_size 1 (2 ^ 1080) ≠
      some ⌈((1 : Nat) : ℚ) / (((2 ^ 1080 : Nat)) : ℚ)⌉ := by
  have hq : (((2 ^ 54 + 1 : Nat)) : ℚ) / ((1 : Nat) : ℚ) =
      (2 ^ 54 + 1 : ℚ) := by
    push_cast
    norm_num
  have hfloor : ⌊(2 ^ 54 + 1 : ℚ)⌋ = 2 ^ 54 + 1 := by
    rw [show (2 ^ 54 + 1 : ℚ) = (((2 ^ 54 + 1 : ℤ)) : ℚ) by push_cast; ring]
    rw [Int.floor_intCast]
  have hqlog : qlog2 (2 ^ 54 + 1 : ℚ) = 54 := by
    have hlog : Nat.log 2 18014398509481985 = 54 :=
      Nat.log_eq_of_pow_le_of_lt_pow (by norm_num) (by norm_num)
    rw [qlog2, if_pos (by norm_num), hfloor]
    rw [show ((2 ^ 54 + 1 : ℤ)).toNat = 2 ^ 54 + 1 from rfl]
    norm_num [hlog]
  have hscale : rnScale (2 ^ 54 + 1 : ℚ) = -2 := by
    rw [rnScale, hqlog]
    decide
  have hx : (2 ^ 54 + 1 : ℚ) * 2 ^ rnScale (2 ^ 54 + 1 : ℚ) =
      (2 ^ 54 + 1 : ℚ) / 4 := by
    rw [hscale]
    rw [show ((-2 : ℤ)) = -(2 : ℤ) by norm_num, zpow_neg]
    rw [show ((2 : ℚ) ^ (2 : ℤ)) = 4 by norm_num]
    ring
  have hfx : ⌊(2 ^ 54 + 1 : ℚ) * 2 ^ rnScale (2 ^ 54 + 1 : ℚ)⌋ =
      2 ^ 52 := by
    rw [hx, Int.floor_eq_iff]
    constructor
    · push_cast
      norm_num
    · push_cast
      norm_num
  have hmant : rnMantissa (2 ^ 54 + 1 : ℚ) = 2 ^ 52 := by
    rw [rnMantissa, hfx, hx]
    rw [if_pos]
    push_cast
    norm_num
  have hrn : rn53 (2 ^ 54 + 1 : ℚ) = 2 ^ 54 := by
    rw [rn53, if_neg (by norm_num), hmant, hscale]
    rw [show ((-2 : ℤ)) = -(2 : ℤ) by norm_num, zpow_neg]
    rw [show ((2 : ℚ) ^ (2 : ℤ)) = 4 by norm_num]
    push_cast
    rw [div_eq_mul_inv, inv_inv]
    norm_num
  have h1 : get_expected_preimage_size (2 ^ 54 + 1) 1 = some (2 ^ 54) := by
    rw [get_expected_preimage_size, hq, hrn]
    rw [if_pos (by
      rw [show ((1024 : ℤ)) = ((1024 : ℕ) : ℤ) from rfl, zpow_natCast]
      norm_num)]
    rw [show (2 ^ 54 : ℚ) = (((2 ^ 54 : ℤ)) : ℚ) by push_cast; ring]
    rw [Int.ceil_intCast]
  have h2 : ⌈(((2 ^ 54 + 1 : Nat)) : ℚ) / ((1 : Nat) : ℚ)⌉ =
      2 ^ 54 + 1 := by
    rw [hq]
    rw [show (2 ^ 54 + 1 : ℚ) = (((2 ^ 54 + 1 : ℤ)) : ℚ) by push_cast; ring]
    rw [Int.ceil_intCast]
  have hqu : ((1 : Nat) : ℚ) / (((2 ^ 1080 : Nat)) : ℚ) =
      ((2 ^ 1080 : ℚ))⁻¹ := by
    push_cast
    rw [one_div]
  have hql : qlog2 ((2 ^ 1080 : ℚ))⁻¹ = -1080 := by
    rw [qlog2, if_neg (by norm_num), inv_inv]
    rw [show ((2 ^ 1080 : ℚ)) = (((2 ^ 1080 : ℤ)) : ℚ) by push_cast; ring]
    rw [Int.ceil_intCast]
    rw [show ((2 ^ 1080 : ℤ)) = ((2 ^ 1080 : ℕ) : ℤ) by push_cast; ring]
    rw [Int.toNat_natCast]
    rw [Nat.clog_pow 2 1080 (by norm_num)]
    norm_num
  have hscale2 : rnScale ((2 ^ 1080 : ℚ))⁻¹ = 1074 := by
    rw [rnScale, hql]
    decide
  have hx2 : ((2 ^ 1080 : ℚ))⁻¹ * 2 ^ rnScale ((2 ^ 1080 : ℚ))⁻¹ =
      1 / 64 := by
    rw [hscale2]
    rw [show ((2 ^ 1080 : ℚ))⁻¹ = 2 ^ (-1080 : ℤ) by
      rw [← zpow_natCast (2 : ℚ) 1080, ← zpow_neg]
      norm_cast]
    rw [← zpow_add₀ (by norm_num : (2 : ℚ) ≠ 0)]
    rw [show (-1080 + 1074 : ℤ) = -(6 : ℤ) by norm_num, zpow_neg]
    rw [show ((6 : ℤ)) = ((6 : ℕ) : ℤ) from rfl, zpow_natCast]
    norm_num
  have hfx2 : ⌊((2 ^ 1080 : ℚ))⁻¹ * 2 ^ rnScale ((2 ^ 1080 : ℚ))⁻¹⌋ =
      0 := by
    rw [hx2, Int.floor_eq_iff]
    constructor
    · push_cast
      norm_num
    · push_cast
      norm_num
  have hmant2 : rnMantissa ((2 ^ 1080 : ℚ))⁻¹ = 0 := by
    rw [rnMantissa, hfx2, hx2]
    rw [if_pos]
    push_cast
    norm_num
  have hrn2 : rn53 ((2 ^ 1080 : ℚ))⁻¹ = 0 := by
    rw [rn53, if_neg (not_le.2 (by positivity)), hmant2]
    push_cast
    rw [zero_div]
  have h4 : get_expected_preimage_size 1 (2 ^ 1080) = some 0 := by
    rw [get_expected_preimage_size, hqu, hrn2]
    rw [if_pos (zpow_pos (by norm_num) _)]
    rw [Int.ceil_zero]
  have h5 : ⌈((1 : Nat) : ℚ) / (((2 ^ 1080 : Nat)) : ℚ)⌉ = 1 := by
    rw [hqu, Int.ceil_eq_iff]
    have hpos : (0 : ℚ) < ((2 ^ 1080 : ℚ))⁻¹ := by positivity
    have hle : ((2 ^ 1080 : ℚ))⁻¹ ≤ 1 :=
      inv_le_one_of_one_le₀ (one_le_pow₀ (by norm_num))
    constructor
    · push_cast
      linarith
    · push_cast
      linarith
  refine ⟨h1, h2, ?_, h4, h5, ?_⟩
  · rw [h1, h2]
    simp only [ne_eq, Option.some.injEq]
    norm_num
  · rw [h4, h5]
    simp only [ne_eq, Option.some.injEq]
    norm_num

/-! Binomial-sampler conversion and branch dispatch (claim C8).  The
conversion of the 64-bit PRF output to a uniform double in
`IPRF._sample_binomial` (iprf.py lines 283-284) is
`((prf_output >> 11) + 0.5) * (1.0 / (1 << 53))`: `float(r >> 11)` is
exact (the value is below `2^53`), the addition of `0.5` is one correctly
rounded binary64 operation (`rn53`), and the final scaling is exact
because `1.0 / (1 << 53)` is the exact power of two `2^-53` and the
rounded sum, having at most 53 significand bits, scales into the normal
range `[2^-54, 1]` without further rounding.  The guard chain of
`IPRF._binomial_inverse_cdf` (iprf.py lines 303-317) is embedded with the
exact rational values of the doubles `u` and `p`; the two numeric
branches stay abstract. -/

end Plinko
